import Mathlib

/-!
Verification of the "within • Shared Runs Pilot" core logic
(`src/app/page.tsx` and its earlier revision).

Modelling conventions:
* A JavaScript `Date` / ISO timestamp is modelled as the number of
  milliseconds since the epoch, a `Nat` (`Instant`).  All timestamp
  arithmetic in the source (`mins`, `hours`, `getTime`, comparisons via
  `dayjs().isAfter`) is exact integer arithmetic on those milliseconds.
* `Math.ceil(ms / bucket) * bucket` on naturals, with `bucket > 0`, is the
  natural-number ceiling division `(ms + bucket - 1) / bucket * bucket`.
* The trial-division loops in `largestPrimeFactor` are embedded by
  well-founded recursion.  The JavaScript `while (x % f === 0)` loop is
  guarded in addition by `2 ≤ f ∧ 0 < x`, which always holds at the
  source's call sites (the source would not terminate on `x = 0`, which is
  unreachable for positive input).
-/

namespace Within

/-- Milliseconds since the epoch, the value of `Date.prototype.getTime`. -/
abbrev Instant := Nat

/-- Source: `const BUCKET_MIN = 15;`. -/
def BUCKET_MIN : Nat := 15

/-- Source: `const mins = (n) => n * 60 * 1000;`. -/
def mins (n : Nat) : Nat := n * 60 * 1000

/-- Source: `const hours = (n) => n * 60 * 60 * 1000;`. -/
def hours (n : Nat) : Nat := n * 60 * 60 * 1000

/-- Source: `roundUpToBucket`: `new Date(Math.ceil(ms / bucket) * bucket)`
with `bucket = bucketMin * 60 * 1000`.  For a positive bucket,
`Math.ceil(ms / bucket)` on naturals is `(ms + bucket - 1) / bucket`. -/
def roundUpToBucket (d : Instant) (bucketMin : Nat := BUCKET_MIN) : Instant :=
  let bucket := bucketMin * 60 * 1000
  ((d + bucket - 1) / bucket) * bucket

/-- One inner loop of `largestPrimeFactor`: `while (x % f === 0) x /= f;`.
The extra guard `2 ≤ f ∧ 0 < x` is needed for termination and always holds
where the source runs the loop. -/
def stripAll (f x : Nat) : Nat :=
  if h : 2 ≤ f ∧ x % f = 0 ∧ 0 < x then stripAll f (x / f) else x
termination_by x
decreasing_by
  exact Nat.div_lt_self h.2.2 (by omega)

/-- The `for (let f = 3; f * f <= x; f += 2)` loop of `largestPrimeFactor`,
carrying the running value `lpf`.  The inner `while` sets `lpf = f` exactly
when it divides at least once, i.e. when `stripAll f x ≠ x`; the trailing
`if (x > 1) lpf = x;` is the second branch. -/
def lpfLoop (f x lpf : Nat) : Nat :=
  if h : f * f ≤ x then
    lpfLoop (f + 2) (stripAll f x) (if stripAll f x ≠ x then f else lpf)
  else if 1 < x then x else lpf
termination_by x + 2 - f
decreasing_by
  have hle : stripAll f x ≤ x := by
    have : ∀ y, stripAll f y ≤ y := by
      intro y
      induction y using Nat.strong_induction_on with
      | _ y ih =>
        rw [stripAll]
        split
        · next hg =>
          have hlt : y / f < y := Nat.div_lt_self hg.2.2 (by omega)
          exact Nat.le_trans (ih _ hlt) (Nat.le_of_lt hlt)
        · exact Nat.le_refl y
    exact this x
  have hfx : f ≤ x + 1 := by
    rcases Nat.lt_or_ge f 2 with h2 | h2
    · omega
    · have : f ≤ f * f := Nat.le_mul_of_pos_left f (by omega)
      omega
  omega

/-- Source: `largestPrimeFactor`.  The leading `while (x % 2 === 0)` loop is
`stripAll 2 n`; it leaves `lpf = 2` iff it divided at least once. -/
def largestPrimeFactor (n : Nat) : Nat :=
  lpfLoop 3 (stripAll 2 n) (if stripAll 2 n ≠ n then 2 else 1)

/-- The `UnitPlan` of the spec: `unitsAuto = largestPrimeFactor(item.total)`
and `unitSize = item.total / unitsAuto` (exact, since the count divides). -/
structure UnitPlan where
  unitCount : Nat
  unitSize : Nat
deriving DecidableEq

/-- `planUnits` of the spec, assembled from the source's `unitsAuto` and
`unitSize` derived values. -/
def planUnits (totalQuantity : Nat) : UnitPlan :=
  ⟨largestPrimeFactor totalQuantity,
   totalQuantity / largestPrimeFactor totalQuantity⟩

/-- The `RunWindow` of the spec: the three instants `postSignal` computes. -/
structure RunWindow where
  start : Instant
  «end» : Instant
  expiresAt : Instant
deriving DecidableEq

/-- `planWindow` of the spec, assembled from the source's `postSignal`:
`start = nowRounded + mins(leaveInMin)`, `end = start + hours(windowHours)`,
`expiresAt = end + hours(2)`, with `nowRounded = roundUpToBucket(now, bucket)`. -/
def planWindow (now : Instant) (bucketMin leaveInMin windowHours : Nat) :
    RunWindow :=
  let s := roundUpToBucket now bucketMin + mins leaveInMin
  let e := s + hours windowHours
  ⟨s, e, e + hours 2⟩

/-- Source: `const units_total = Math.max(1, Math.min(24, Number(form.units) || 1));`.
`Number(form.units) || 1` maps `0` (and only `0`, on naturals) to `1`. -/
def postSignalUnitsTotal (units : Nat) : Nat :=
  max 1 (min 24 (if units = 0 then 1 else units))

/-- Source: `type Direction = 'north' | 'south' | 'east' | 'west';`. -/
inductive Direction
  | north
  | south
  | east
  | west
deriving DecidableEq

/-- Source: the `Signal` row type; the ISO timestamp strings
(`window_start`, `window_end`, `expires_at`) are modelled as the instants
they denote. -/
structure Signal where
  id : String
  direction : Direction
  purpose : String
  window_start : Instant
  window_end : Instant
  units_total : Nat
  units_claimed : Nat
  expires_at : Instant
deriving DecidableEq

/-- A row of the backend `claims` table, as inserted by `claimOne`. -/
structure ClaimRow where
  signal_id : String
  unit_count : Nat
deriving DecidableEq

/-- The backend state `claimOne` touches: the `claims` table and, per signal
id, the `units_claimed` counter maintained by the `increment_claimed`
remote procedure. -/
structure BackendState where
  claims : List ClaimRow
  claimedCount : String → Nat

/-- Source: `claimOne`.  `dayjs().isAfter(dayjs(s.expires_at))` is
`s.expires_at < now` (strictly after); on expiry or fullness the function
returns without touching the backend.  Otherwise it inserts
`{ signal_id: s.id, unit_count: 1 }` into `claims` and calls the external
`increment_claimed` procedure, modelled as bumping the signal's counter. -/
def claimOne (now : Instant) (s : Signal) (db : BackendState) : BackendState :=
  if s.units_claimed ≥ s.units_total ∨ s.expires_at < now then db
  else
    { claims := db.claims ++ [⟨s.id, 1⟩],
      claimedCount := fun i =>
        if i = s.id then db.claimedCount i + 1 else db.claimedCount i }

/-- Source: `const activeSignals = signals.filter(s => now.isBefore(dayjs(s.expires_at)));`. -/
def activeSignals (now : Instant) (signals : List Signal) : List Signal :=
  signals.filter fun s => now < s.expires_at

/-! ### Properties of `stripAll` -/

theorem stripAll_le (f x : Nat) : stripAll f x ≤ x := by
  induction x using Nat.strong_induction_on with
  | _ x ih =>
    rw [stripAll]
    split
    · next hg =>
      have hlt : x / f < x := Nat.div_lt_self hg.2.2 (by omega)
      exact Nat.le_trans (ih _ hlt) (Nat.le_of_lt hlt)
    · exact Nat.le_refl x

theorem stripAll_dvd (f x : Nat) : stripAll f x ∣ x := by
  induction x using Nat.strong_induction_on with
  | _ x ih =>
    rw [stripAll]
    split
    · next hg =>
      have hlt : x / f < x := Nat.div_lt_self hg.2.2 (by omega)
      have hfx : f ∣ x := Nat.dvd_of_mod_eq_zero hg.2.1
      exact (ih _ hlt).trans (Nat.div_dvd_of_dvd hfx)
    · exact dvd_refl x

theorem stripAll_pos (f x : Nat) (hx : 0 < x) : 0 < stripAll f x :=
  Nat.pos_of_dvd_of_pos (stripAll_dvd f x) hx

theorem stripAll_not_dvd (f x : Nat) (hf : 2 ≤ f) (hx : 0 < x) :
    ¬ f ∣ stripAll f x := by
  induction x using Nat.strong_induction_on with
  | _ x ih =>
    rw [stripAll]
    split
    · next hg =>
      have hlt : x / f < x := Nat.div_lt_self hg.2.2 (by omega)
      have hq : 0 < x / f := by
        have hfx : f ∣ x := Nat.dvd_of_mod_eq_zero hg.2.1
        exact Nat.div_pos (Nat.le_of_dvd hg.2.2 hfx) (by omega)
      exact ih _ hlt hq
    · next hg =>
      intro hdvd
      obtain ⟨c, rfl⟩ := hdvd
      exact hg ⟨hf, Nat.mul_mod_right f c, hx⟩

theorem stripAll_eq_of_not_dvd (f x : Nat) (h : ¬ f ∣ x) : stripAll f x = x := by
  rw [stripAll]
  split
  · next hg => exact absurd (Nat.dvd_of_mod_eq_zero hg.2.1) h
  · rfl

theorem stripAll_prime_dvd (q f x : Nat) (hq : q.Prime) (hd : q ∣ x) :
    q ∣ stripAll f x ∨ q ∣ f := by
  induction x using Nat.strong_induction_on with
  | _ x ih =>
    rw [stripAll]
    split
    · next hg =>
      have hlt : x / f < x := Nat.div_lt_self hg.2.2 (by omega)
      have hfx : f ∣ x := Nat.dvd_of_mod_eq_zero hg.2.1
      have hx : x = f * (x / f) := (Nat.mul_div_cancel' hfx).symm
      rcases (Nat.Prime.dvd_mul hq).mp (hx ▸ hd) with hqf | hqd
      · exact Or.inr hqf
      · exact ih _ hlt hqd
    · exact Or.inl hd

/-! ### Correctness of the trial-division loop -/

/-- Loop invariant for `lpfLoop`: `x` is the part of `n` not yet factored
(all its prime factors are at least `f`, `f` odd), and `lpf` is `1` if no
prime below `f` divides `n`, else the largest such prime.  The loop then
returns `1` for `n = 1` and the largest prime factor of `n` otherwise. -/
theorem lpfLoop_good (n : Nat) (hn : 0 < n) (k : Nat) :
    ∀ x f lpf, x + 2 - f = k → 3 ≤ f → f % 2 = 1 → x ∣ n → 0 < x →
    (∀ p, p.Prime → p ∣ x → f ≤ p) →
    ((lpf = 1 ∧ ∀ p, p.Prime → p ∣ n → p ∣ x) ∨
      (lpf.Prime ∧ lpf ∣ n ∧ lpf < f ∧
        ∀ p, p.Prime → p ∣ n → p ∣ x ∨ p ≤ lpf)) →
    ((n = 1 → lpfLoop f x lpf = 1) ∧
      (2 ≤ n → (lpfLoop f x lpf).Prime ∧ lpfLoop f x lpf ∣ n ∧
        ∀ q, q.Prime → q ∣ n → q ≤ lpfLoop f x lpf)) := by
  induction k using Nat.strong_induction_on with
  | _ k ih =>
    intro x f lpf hk hf3 hodd hxn hx hge hlpf
    rw [lpfLoop]
    split
    · next hguard =>
      -- Recursive case: `f * f ≤ x`.
      have hle : stripAll f x ≤ x := stripAll_le f x
      have hfx : f ≤ x :=
        le_trans (Nat.le_mul_of_pos_left f (by omega)) hguard
      have hdec : stripAll f x + 2 - (f + 2) < k := by omega
      have hge' : ∀ p, p.Prime → p ∣ stripAll f x → f + 2 ≤ p := by
        intro p hp hpx'
        have hpx : p ∣ x := hpx'.trans (stripAll_dvd f x)
        have h1 : f ≤ p := hge p hp hpx
        have h2 : p ≠ f := by
          rintro rfl
          exact stripAll_not_dvd p x (by omega) hx hpx'
        have h3 : p ≠ f + 1 := by
          rintro rfl
          have h2d : (2 : Nat) ∣ f + 1 := by omega
          rcases hp.eq_one_or_self_of_dvd 2 h2d with h | h <;> omega
        omega
      have hlpf' :
          ((if stripAll f x ≠ x then f else lpf) = 1 ∧
            ∀ p, p.Prime → p ∣ n → p ∣ stripAll f x) ∨
          ((if stripAll f x ≠ x then f else lpf).Prime ∧
            (if stripAll f x ≠ x then f else lpf) ∣ n ∧
            (if stripAll f x ≠ x then f else lpf) < f + 2 ∧
            ∀ p, p.Prime → p ∣ n →
              p ∣ stripAll f x ∨ p ≤ if stripAll f x ≠ x then f else lpf) := by
        by_cases hch : stripAll f x ≠ x
        · -- The inner while divided at least once, so `f ∣ x` and `f` is prime.
          simp only [if_pos hch]
          have hfdvd : f ∣ x := by
            by_contra hnd
            exact hch (stripAll_eq_of_not_dvd f x hnd)
          have hfprime : f.Prime := by
            by_contra hnp
            have hmp : f.minFac.Prime := Nat.minFac_prime (by omega)
            have hmlt : f.minFac < f := by
              have hne : f.minFac ≠ f := fun he =>
                hnp (Nat.prime_def_minFac.mpr ⟨by omega, he⟩)
              have := Nat.minFac_le (n := f) (by omega)
              omega
            have := hge f.minFac hmp ((Nat.minFac_dvd f).trans hfdvd)
            omega
          refine Or.inr ⟨hfprime, hfdvd.trans hxn, by omega, ?_⟩
          intro p hp hpn
          have hbranch : p ∣ x → p ∣ stripAll f x ∨ p ≤ f := by
            intro hpx
            rcases stripAll_prime_dvd p f x hp hpx with h | h
            · exact Or.inl h
            · exact Or.inr (le_of_eq ((Nat.prime_dvd_prime_iff_eq hp hfprime).mp h))
          rcases hlpf with ⟨_, hall⟩ | ⟨_, _, hlt, hall⟩
          · exact hbranch (hall p hp hpn)
          · rcases hall p hp hpn with hpx | hple
            · exact hbranch hpx
            · exact Or.inr (by omega)
        · -- The factor `f` does not divide `x`; nothing changes.
          have heq : stripAll f x = x := by omega
          simp only [if_neg hch]
          rcases hlpf with ⟨h1, hall⟩ | ⟨h1, h2, hlt, hall⟩
          · exact Or.inl ⟨h1, fun p hp hpn => by rw [heq]; exact hall p hp hpn⟩
          · exact Or.inr ⟨h1, h2, by omega,
              fun p hp hpn => by rw [heq]; exact hall p hp hpn⟩
      exact ih _ hdec (stripAll f x) (f + 2) _ rfl (by omega) (by omega)
        ((stripAll_dvd f x).trans hxn) (stripAll_pos f x hx) hge' hlpf'
    · next hguard =>
      -- Base case: `f * f > x`; the source returns `x` if `x > 1`, else `lpf`.
      split
      · next h1x =>
        -- `x` has no factor `m` with `m * m ≤ x`, hence is prime.
        have hxprime : x.Prime := by
          rw [Nat.prime_def_le_sqrt]
          refine ⟨by omega, ?_⟩
          intro m hm2 hmsqrt hmdvd
          have hmm : m * m ≤ x := Nat.le_sqrt.mp hmsqrt
          have hqp : m.minFac.Prime := Nat.minFac_prime (by omega)
          have hqx : m.minFac ∣ x := (Nat.minFac_dvd m).trans hmdvd
          have hfm : f ≤ m := le_trans (hge _ hqp hqx) (Nat.minFac_le (by omega))
          exact hguard (le_trans (Nat.mul_le_mul hfm hfm) hmm)
        have hfxle : f ≤ x := hge x hxprime dvd_rfl
        constructor
        · intro hn1
          subst hn1
          have := Nat.le_of_dvd (by omega) hxn
          omega
        · intro _
          refine ⟨hxprime, hxn, ?_⟩
          intro q hq hqn
          rcases hlpf with ⟨_, hall⟩ | ⟨_, _, hlt, hall⟩
          · exact Nat.le_of_dvd (by omega) (hall q hq hqn)
          · rcases hall q hq hqn with hqx | hqle
            · exact Nat.le_of_dvd (by omega) hqx
            · omega
      · next h1x =>
        -- `x = 1`: all prime factors of `n` have been consumed.
        have hx1 : x = 1 := by omega
        subst hx1
        rcases hlpf with ⟨hl1, hall⟩ | ⟨hlp, hld, _, hall⟩
        · have hn1 : n = 1 := by
            by_contra hne
            obtain ⟨p, hp, hpn⟩ := Nat.exists_prime_and_dvd hne
            have hp1 : p = 1 := Nat.dvd_one.mp (hall p hp hpn)
            exact hp.one_lt.ne' hp1
          exact ⟨fun _ => hl1, fun h2 => by omega⟩
        · have hn2 : 2 ≤ n := le_trans hlp.two_le (Nat.le_of_dvd hn hld)
          refine ⟨fun hn1 => by omega, fun _ => ⟨hlp, hld, ?_⟩⟩
          intro q hq hqn
          rcases hall q hq hqn with hq1 | hqle
          · exact absurd (Nat.dvd_one.mp hq1) hq.one_lt.ne'
          · exact hqle

/-- `largestPrimeFactor` returns `1` on `1` and the largest prime factor on
every `n ≥ 2`. -/
theorem largestPrimeFactor_good (n : Nat) (hn : 0 < n) :
    (n = 1 → largestPrimeFactor n = 1) ∧
    (2 ≤ n → (largestPrimeFactor n).Prime ∧ largestPrimeFactor n ∣ n ∧
      ∀ q, q.Prime → q ∣ n → q ≤ largestPrimeFactor n) := by
  have hge : ∀ p, p.Prime → p ∣ stripAll 2 n → 3 ≤ p := by
    intro p hp hpx
    have h2 : 2 ≤ p := hp.two_le
    have hne : p ≠ 2 := by
      rintro rfl
      exact stripAll_not_dvd 2 n (by omega) hn hpx
    omega
  have hlpf :
      ((if stripAll 2 n ≠ n then 2 else 1) = 1 ∧
        ∀ p, p.Prime → p ∣ n → p ∣ stripAll 2 n) ∨
      ((if stripAll 2 n ≠ n then 2 else 1).Prime ∧
        (if stripAll 2 n ≠ n then 2 else 1) ∣ n ∧
        (if stripAll 2 n ≠ n then 2 else 1) < 3 ∧
        ∀ p, p.Prime → p ∣ n →
          p ∣ stripAll 2 n ∨ p ≤ if stripAll 2 n ≠ n then 2 else 1) := by
    by_cases hch : stripAll 2 n ≠ n
    · simp only [if_pos hch]
      have h2d : (2 : Nat) ∣ n := by
        by_contra hnd
        exact hch (stripAll_eq_of_not_dvd 2 n hnd)
      refine Or.inr ⟨Nat.prime_two, h2d, by omega, ?_⟩
      intro p hp hpn
      rcases stripAll_prime_dvd p 2 n hp hpn with h | h
      · exact Or.inl h
      · exact Or.inr (Nat.le_of_dvd (by omega) h)
    · rw [if_neg hch]
      have heq : stripAll 2 n = n := not_ne_iff.mp hch
      exact Or.inl ⟨rfl, fun p hp hpn => by rw [heq]; exact hpn⟩
  exact lpfLoop_good n hn (stripAll 2 n + 2 - 3) (stripAll 2 n) 3 _ rfl
    (by omega) (by omega) (stripAll_dvd 2 n) (stripAll_pos 2 n hn) hge hlpf

/-- Worked example from the spec: `30 = 2 × 3 × 5` has largest prime
factor `5`. -/
theorem lpf_thirty : largestPrimeFactor 30 = 5 := by
  simp [largestPrimeFactor, lpfLoop, stripAll]

/-! ### Properties of the bucket rounding -/

/-- Natural-number ceiling rounding `(d + B - 1) / B * B` is the least
multiple of `B` that is at least `d`. -/
theorem roundUp_core (d B : Nat) (hB : 0 < B) :
    B ∣ ((d + B - 1) / B) * B ∧ d ≤ ((d + B - 1) / B) * B ∧
    ∀ m, B ∣ m → d ≤ m → ((d + B - 1) / B) * B ≤ m := by
  refine ⟨dvd_mul_left B _, ?_, ?_⟩
  · have hdm := Nat.div_add_mod (d + B - 1) B
    have hmod : (d + B - 1) % B < B := Nat.mod_lt _ hB
    rw [Nat.mul_comm]
    omega
  · intro m hm hdm
    obtain ⟨t, rfl⟩ := hm
    have hq : (d + B - 1) / B ≤ t := by
      apply (Nat.div_le_iff_le_mul_add_pred hB).mpr
      omega
    calc ((d + B - 1) / B) * B ≤ t * B := Nat.mul_le_mul_right B hq
      _ = B * t := Nat.mul_comm t B

/-- An instant already on a bucket boundary is unchanged by rounding. -/
theorem roundUp_aligned (d bucketMin : Nat) (hb : 0 < bucketMin)
    (h : bucketMin * 60 * 1000 ∣ d) : roundUpToBucket d bucketMin = d := by
  have hB : 0 < bucketMin * 60 * 1000 := by omega
  obtain ⟨hdvd, hge, hmin⟩ := roundUp_core d (bucketMin * 60 * 1000) hB
  exact le_antisymm (hmin d h le_rfl) hge

/-! ### The claims -/

/-- C1: For every positive integer `n`, `largestPrimeFactor n` — the
`unitCount` of `planUnits n` — equals `1` when `n = 1`, and otherwise is
the largest prime dividing `n` evenly (the largest element of `n`'s prime
factorization, multiplicity ignored); in particular
`largestPrimeFactor 30 = 5`. -/
theorem C1_largestPrimeFactor_spec (n : Nat) (hn : 0 < n) :
    (planUnits n).unitCount = largestPrimeFactor n ∧
    (n = 1 → largestPrimeFactor n = 1) ∧
    (2 ≤ n → (largestPrimeFactor n).Prime ∧ largestPrimeFactor n ∣ n ∧
      ∀ q, q.Prime → q ∣ n → q ≤ largestPrimeFactor n) ∧
    largestPrimeFactor 30 = 5 :=
  ⟨rfl, (largestPrimeFactor_good n hn).1, (largestPrimeFactor_good n hn).2,
    lpf_thirty⟩

theorem C1_witness :
    0 < 30 ∧
    ((planUnits 30).unitCount = largestPrimeFactor 30 ∧
      (30 = 1 → largestPrimeFactor 30 = 1) ∧
      (2 ≤ 30 → (largestPrimeFactor 30).Prime ∧ largestPrimeFactor 30 ∣ 30 ∧
        ∀ q, q.Prime → q ∣ 30 → q ≤ largestPrimeFactor 30) ∧
      largestPrimeFactor 30 = 5) :=
  ⟨by decide, C1_largestPrimeFactor_spec 30 (by decide)⟩

/-- C2: For every `n ≥ 1`, `planUnits n` yields a `unitCount` that divides
`n` exactly, with `unitCount * unitSize = n`, `1 ≤ unitCount` and
`unitCount ≤ n`. -/
theorem C2_planUnits_partition (n : Nat) (hn : 0 < n) :
    (planUnits n).unitCount ∣ n ∧
    (planUnits n).unitCount * (planUnits n).unitSize = n ∧
    1 ≤ (planUnits n).unitCount ∧ (planUnits n).unitCount ≤ n := by
  have hg := largestPrimeFactor_good n hn
  have hdvd : largestPrimeFactor n ∣ n := by
    rcases Nat.lt_or_ge n 2 with h | h
    · have hn1 : n = 1 := by omega
      rw [hg.1 hn1]
      exact one_dvd n
    · exact (hg.2 h).2.1
  have hpos : 0 < largestPrimeFactor n := by
    rcases Nat.lt_or_ge n 2 with h | h
    · have hn1 : n = 1 := by omega
      rw [hg.1 hn1]
      exact Nat.one_pos
    · exact (hg.2 h).1.pos
  simp only [planUnits]
  exact ⟨hdvd, Nat.mul_div_cancel' hdvd, hpos, Nat.le_of_dvd hn hdvd⟩

theorem C2_witness :
    0 < 12 ∧
    ((planUnits 12).unitCount ∣ 12 ∧
      (planUnits 12).unitCount * (planUnits 12).unitSize = 12 ∧
      1 ≤ (planUnits 12).unitCount ∧ (planUnits 12).unitCount ≤ 12) :=
  ⟨by decide, C2_planUnits_partition 12 (by decide)⟩

/-- C3: For every instant `d` and positive bucket size, `roundUpToBucket d`
is the least multiple of the bucket (in milliseconds) that is `≥ d`; an
aligned instant is unchanged, and an instant one millisecond past a
15-minute boundary rounds to the next boundary. -/
theorem C3_roundUpToBucket_least (d : Instant) (bucketMin : Nat)
    (hb : 0 < bucketMin) :
    bucketMin * 60 * 1000 ∣ roundUpToBucket d bucketMin ∧
    d ≤ roundUpToBucket d bucketMin ∧
    (∀ m, bucketMin * 60 * 1000 ∣ m → d ≤ m →
      roundUpToBucket d bucketMin ≤ m) ∧
    (bucketMin * 60 * 1000 ∣ d → roundUpToBucket d bucketMin = d) ∧
    (∀ k : Nat, roundUpToBucket (k * (15 * 60 * 1000) + 1) 15 =
      (k + 1) * (15 * 60 * 1000)) := by
  have hB : 0 < bucketMin * 60 * 1000 := by omega
  obtain ⟨h1, h2, h3⟩ := roundUp_core d (bucketMin * 60 * 1000) hB
  refine ⟨h1, h2, h3, roundUp_aligned d bucketMin hb, ?_⟩
  intro k
  show ((k * 900000 + 1 + 900000 - 1) / 900000) * 900000 = (k + 1) * 900000
  have harg : k * 900000 + 1 + 900000 - 1 = (k + 1) * 900000 := by omega
  rw [harg, Nat.div_mul_cancel (dvd_mul_left _ _)]

theorem C3_witness :
    0 < 1 ∧
    (1 * 60 * 1000 ∣ roundUpToBucket 7 1 ∧
      7 ≤ roundUpToBucket 7 1 ∧
      (∀ m, 1 * 60 * 1000 ∣ m → 7 ≤ m → roundUpToBucket 7 1 ≤ m) ∧
      (1 * 60 * 1000 ∣ 7 → roundUpToBucket 7 1 = 7) ∧
      (∀ k : Nat, roundUpToBucket (k * (15 * 60 * 1000) + 1) 15 =
        (k + 1) * (15 * 60 * 1000))) :=
  ⟨by decide, C3_roundUpToBucket_least 7 1 (by decide)⟩

/-- C4: For every input, `planWindow` computes
`start = roundedNow + leaveIn` minutes, `end = start + windowHours` hours,
`expiresAt = end + 2` hours; in particular, when `now` lies on a 15-minute
boundary, bucket 15, leaveIn 0, hrs 2 yield `start = now`,
`end = now + 2h`, `expiresAt = now + 4h`. -/
theorem C4_planWindow_arithmetic (now : Instant)
    (bucketMin leaveIn hrs : Nat) :
    ((planWindow now bucketMin leaveIn hrs).start =
        roundUpToBucket now bucketMin + mins leaveIn ∧
      (planWindow now bucketMin leaveIn hrs).«end» =
        (planWindow now bucketMin leaveIn hrs).start + hours hrs ∧
      (planWindow now bucketMin leaveIn hrs).expiresAt =
        (planWindow now bucketMin leaveIn hrs).«end» + hours 2) ∧
    (15 * 60 * 1000 ∣ now →
      planWindow now 15 0 2 = ⟨now, now + hours 2, now + hours 4⟩) := by
  refine ⟨⟨rfl, rfl, rfl⟩, fun halign => ?_⟩
  have hr : roundUpToBucket now 15 = now :=
    roundUp_aligned now 15 (by omega) halign
  rw [show planWindow now 15 0 2 =
      (⟨roundUpToBucket now 15 + mins 0,
        roundUpToBucket now 15 + mins 0 + hours 2,
        roundUpToBucket now 15 + mins 0 + hours 2 + hours 2⟩ : RunWindow)
      from rfl,
    hr, show mins 0 = 0 from rfl, Nat.add_zero, Nat.add_assoc,
    show hours 2 + hours 2 = hours 4 from rfl]

theorem C4_witness :
    ((planWindow 1800000 15 0 2).start =
        roundUpToBucket 1800000 15 + mins 0 ∧
      (planWindow 1800000 15 0 2).«end» =
        (planWindow 1800000 15 0 2).start + hours 2 ∧
      (planWindow 1800000 15 0 2).expiresAt =
        (planWindow 1800000 15 0 2).«end» + hours 2) ∧
    planWindow 1800000 15 0 2 =
      ⟨1800000, 1800000 + hours 2, 1800000 + hours 4⟩ :=
  ⟨(C4_planWindow_arithmetic 1800000 15 0 2).1,
    (C4_planWindow_arithmetic 1800000 15 0 2).2 (by decide)⟩

/-- C5: For every valid input (`bucketMin > 0`, `leaveIn ≥ 0`,
`windowHours > 0`), the `RunWindow` from `planWindow` satisfies
`start ≤ end < expiresAt`. -/
theorem C5_planWindow_ordered (now : Instant)
    (bucketMin leaveIn hrs : Nat) (hb : 0 < bucketMin) (hh : 0 < hrs) :
    (planWindow now bucketMin leaveIn hrs).start ≤
      (planWindow now bucketMin leaveIn hrs).«end» ∧
    (planWindow now bucketMin leaveIn hrs).«end» <
      (planWindow now bucketMin leaveIn hrs).expiresAt := by
  refine ⟨?_, ?_⟩
  · show roundUpToBucket now bucketMin + mins leaveIn ≤
        roundUpToBucket now bucketMin + mins leaveIn + hours hrs
    exact Nat.le_add_right _ _
  · show roundUpToBucket now bucketMin + mins leaveIn + hours hrs <
        roundUpToBucket now bucketMin + mins leaveIn + hours hrs + hours 2
    exact Nat.lt_add_of_pos_right (by decide)

theorem C5_witness :
    0 < 15 ∧ 0 < 1 ∧
    ((planWindow 0 15 30 1).start ≤ (planWindow 0 15 30 1).«end» ∧
      (planWindow 0 15 30 1).«end» < (planWindow 0 15 30 1).expiresAt) :=
  ⟨by decide, by decide, C5_planWindow_ordered 0 15 30 1 (by decide) (by decide)⟩

/-- C6: For every computed `unitCount`, the `units_total` value persisted
by the submission call equals `max 1 (min 24 unitCount)`. -/
theorem C6_unitsTotal_clamp (unitCount : Nat) :
    postSignalUnitsTotal unitCount = max 1 (min 24 unitCount) := by
  unfold postSignalUnitsTotal
  rcases Nat.eq_zero_or_pos unitCount with rfl | hu
  · decide
  · rw [if_neg (by omega)]

/-- C7: For every prime `p`, `planUnits p = { unitCount := p, unitSize := 1 }`. -/
theorem C7_planUnits_prime (p : Nat) (hp : p.Prime) :
    planUnits p = ⟨p, 1⟩ := by
  have hg := (largestPrimeFactor_good p hp.pos).2 hp.two_le
  have heq : largestPrimeFactor p = p :=
    (Nat.prime_dvd_prime_iff_eq hg.1 hp).mp hg.2.1
  rw [show planUnits p =
      (⟨largestPrimeFactor p, p / largestPrimeFactor p⟩ : UnitPlan) from rfl,
    heq, Nat.div_self hp.pos]

theorem C7_witness : Nat.Prime 3 ∧ planUnits 3 = ⟨3, 1⟩ :=
  ⟨Nat.prime_three, C7_planUnits_prime 3 Nat.prime_three⟩

/-- C8: A run never accepts a claim after its expiry or once full: if the
current instant is strictly after `expires_at`, or
`units_claimed ≥ units_total`, then `claimOne` leaves the backend state
unchanged (no claim row inserted, no counter incremented). -/
theorem C8_claimOne_noop (now : Instant) (s : Signal) (db : BackendState)
    (h : s.expires_at < now ∨ s.units_total ≤ s.units_claimed) :
    claimOne now s db = db := by
  unfold claimOne
  split
  · rfl
  · next hcond => exact absurd h.symm hcond

theorem C8_witness :
    ((3 : Nat) < 5 ∨ (4 : Nat) ≤ 0) ∧
    claimOne 5 ⟨"s1", Direction.north, "Costco", 0, 0, 4, 0, 3⟩
        ⟨[], fun _ => 0⟩ = ⟨[], fun _ => 0⟩ :=
  ⟨Or.inl (by decide),
    C8_claimOne_noop 5 ⟨"s1", Direction.north, "Costco", 0, 0, 4, 0, 3⟩
      ⟨[], fun _ => 0⟩ (Or.inl (by decide))⟩

/-- C9: The window planning computation is deterministic and side-effect
free: "now" is an explicit argument, and two runs with equal arguments
produce equal `RunWindow`s. -/
theorem C9_planWindow_deterministic (now₁ now₂ b₁ b₂ l₁ l₂ h₁ h₂ : Nat)
    (hn : now₁ = now₂) (hb : b₁ = b₂) (hl : l₁ = l₂) (hh : h₁ = h₂) :
    planWindow now₁ b₁ l₁ h₁ = planWindow now₂ b₂ l₂ h₂ := by
  rw [hn, hb, hl, hh]

theorem C9_witness :
    (900000 : Nat) = 900000 ∧ (15 : Nat) = 15 ∧ (0 : Nat) = 0 ∧
    (2 : Nat) = 2 ∧ planWindow 900000 15 0 2 = planWindow 900000 15 0 2 :=
  ⟨rfl, rfl, rfl, rfl,
    C9_planWindow_deterministic 900000 900000 15 15 0 0 2 2 rfl rfl rfl rfl⟩

/-- C10: The requester view's list of active signals contains exactly the
loaded signals whose `expires_at` lies strictly after the current
instant. -/
theorem C10_activeSignals_mem (now : Instant) (signals : List Signal)
    (s : Signal) :
    s ∈ activeSignals now signals ↔ s ∈ signals ∧ now < s.expires_at := by
  simp [activeSignals, List.mem_filter]

end Within
